import Mathlib

/-!
Verification of the SubcloneSeeker tree compatibility core against its design
document. The repository only ships the interface headers of the comparison
core (utils/treemerge_p.h) together with the Archivable base class
(src/Archivable.h); the implementation translation units are not among the
given sources, so the comparison algorithm below is modelled from the design
document, while the Archivable accessors are embedded from the header source.
-/

namespace SubcloneSeeker

/-- Modelled from the spec: the constant BOUNDRY_RESOLUTION of treemerge_p.h,
the tolerance used when comparing somatic event coordinates, fixed at
20000000 coordinate units. -/
def BOUNDRY_RESOLUTION : Nat := 20000000

/-- Modelled from the spec: a SomaticEvent record, missing from the given
sources, carrying an event kind discriminant, a chromosome identifier and
start and end coordinate offsets. The kind specific payload plays no role in
the comparison algorithm and is omitted. -/
structure SomaticEvent where
  kind : Nat
  chrom : Nat
  startPos : Int
  endPos : Int
deriving DecidableEq

/-- Modelled from the spec: tolerant equality of two somatic events, missing
from the given sources. Two events are treated as the same event when they
share kind and chromosome and their start and end offsets each differ by no
more than BOUNDRY_RESOLUTION. -/
def eventsRelated (a b : SomaticEvent) : Bool :=
  a.kind == b.kind && a.chrom == b.chrom &&
    decide ((a.startPos - b.startPos).natAbs ≤ BOUNDRY_RESOLUTION) &&
    decide ((a.endPos - b.endPos).natAbs ≤ BOUNDRY_RESOLUTION)

/-- Modelled from the spec: the inner search loop shared by the event set
operations, true when the event e has a tolerant equal counterpart in l. -/
def hasCounterpart (e : SomaticEvent) : List SomaticEvent → Bool
  | [] => false
  | u :: us => if eventsRelated e u then true else hasCounterpart e us

/-- Modelled from the spec: SomaticEventDifference of treemerge_p.h, missing
from the given sources. Returns every event of master that has no tolerant
equal counterpart in unwanted, preserving the order of master. -/
def SomaticEventDifference (master unwanted : List SomaticEvent) :
    List SomaticEvent :=
  match master with
  | [] => []
  | e :: es =>
      if hasCounterpart e unwanted then SomaticEventDifference es unwanted
      else e :: SomaticEventDifference es unwanted

/-- Modelled from the spec: eventSetContains of treemerge_p.h, missing from
the given sources. True when every event of the containee vector has a
tolerant equal counterpart in the container vector. -/
def eventSetContains (v_container v_containee : List SomaticEvent) : Bool :=
  v_containee.all fun e => hasCounterpart e v_container

/-- Modelled from the spec: resultSetComparator of treemerge_p.h, missing
from the given sources. Orders event vectors ascending by event count. -/
def resultSetComparator (v1 v2 : List SomaticEvent) : Bool :=
  decide (v1.length < v2.length)

/-- Modelled from the spec: a Subclone tree node, missing from the given
sources. A node carries the ordered list of somatic events local to it and
the owned list of its child nodes. The parent back reference of the source is
navigational only and is replaced by passing accumulated ancestor events down
from the root. -/
inductive Subclone where
  | mk (events : List SomaticEvent) (children : List Subclone)

/-- Local events of a subclone node. -/
def Subclone.events : Subclone → List SomaticEvent
  | .mk e _ => e

/-- Child nodes of a subclone node. -/
def Subclone.children : Subclone → List Subclone
  | .mk _ c => c

/-- Modelled from the spec: among candidate result vectors, the one that
ranks first under resultSetComparator, with ties resolved in favour of the
earlier candidate. -/
def bestResult (r : List SomaticEvent) (rs : List (List SomaticEvent)) :
    List SomaticEvent :=
  rs.foldl (fun best cur => if resultSetComparator cur best then cur else best) r

mutual

/-- Modelled from the spec: checkPlacement of treemerge_p.h, whose
implementation is missing from the given sources. Decides whether a floating
event set can be embedded in the subtree rooted at pnode. The inherited
argument carries the events implied by the ancestry of pnode inside its own
tree, so the implied event list of pnode is inherited ++ events. The design
document words the feasibility guard of step 2 as
contains(localImplied, somaticEvents); that argument order contradicts the
reflexivity property, the first placement scenario and the leftover semantics
of the same document, which all require the floating set to contain the
accumulated events of the candidate node, so the model uses
eventSetContains somaticEvents localImplied. Returns the leftover events, the
placement flag and the diagnostic count of children reporting success. -/
def checkPlacement (inherited : List SomaticEvent) (pnode : Subclone)
    (somaticEvents : List SomaticEvent) : List SomaticEvent × Bool × Nat :=
  match pnode with
  | .mk evts children =>
      let localImplied := inherited ++ evts
      if eventSetContains somaticEvents localImplied then
        match checkChildren localImplied children somaticEvents with
        | [] => (SomaticEventDifference somaticEvents localImplied, true, 0)
        | r :: rs => (bestResult r rs, true, (r :: rs).length)
      else (somaticEvents, false, 0)

/-- Modelled from the spec: the child loop of checkPlacement. Collects, in
child order, the leftover vectors of those children that report a successful
placement of the floating event set. The localImplied argument is the implied
event list of the parent node. -/
def checkChildren (localImplied : List SomaticEvent) (cs : List Subclone)
    (somaticEvents : List SomaticEvent) : List (List SomaticEvent) :=
  match cs with
  | [] => []
  | c :: rest =>
      let r := checkPlacement localImplied c somaticEvents
      let others := checkChildren localImplied rest somaticEvents
      if r.2.1 then r.1 :: others else others

end

mutual

/-- Modelled from the spec: the per node implied event lists of a tree, the
lifting of nodeEventsList of treemerge_p.h, whose implementation is missing
from the given sources. Given the events inherited from the ancestry, lists
for every node of the tree the full event list implied by that node, each in
root to node order. -/
def impliedEventSets (inherited : List SomaticEvent) (q : Subclone) :
    List (List SomaticEvent) :=
  match q with
  | .mk evts children =>
      (inherited ++ evts) :: impliedEventSetsList (inherited ++ evts) children

/-- Modelled from the spec: the implied event lists of all nodes of a forest,
in traversal order. -/
def impliedEventSetsList (inherited : List SomaticEvent) (cs : List Subclone) :
    List (List SomaticEvent) :=
  match cs with
  | [] => []
  | c :: rest =>
      impliedEventSets inherited c ++ impliedEventSetsList inherited rest

end

/-- Modelled from the spec: TreeMerge of treemerge_p.h, whose implementation
is missing from the given sources. True exactly when every node of tree q,
taken with its implied event list, is reported placeable somewhere in tree p
by checkPlacement against the root of p. -/
def TreeMerge (p q : Subclone) : Bool :=
  (impliedEventSets [] q).all fun evts => (checkPlacement [] p evts).2.1

/-- Modelled from the spec: two event lists are tolerant disjoint when no
event of the first has a tolerant equal counterpart in the second. -/
def eventsDisjoint (l1 l2 : List SomaticEvent) : Bool :=
  l1.all fun e => !(hasCounterpart e l2)

/-- Modelled from the spec: the local event lists of sibling nodes are
pairwise tolerant disjoint. -/
def siblingsDisjoint : List Subclone → Bool
  | [] => true
  | c :: cs =>
      cs.all (fun d => eventsDisjoint c.events d.events) && siblingsDisjoint cs

mutual

/-- Modelled from the spec: validity of a tree below a given inherited event
list. No local event duplicates an event already implied by the ancestry, and
sibling local event lists are pairwise tolerant disjoint. Acyclicity is
inherent to the inductive tree representation. -/
def validFrom (inherited : List SomaticEvent) (t : Subclone) : Bool :=
  match t with
  | .mk evts children =>
      eventsDisjoint evts inherited && siblingsDisjoint children &&
        validFromList (inherited ++ evts) children

/-- Modelled from the spec: validity of every tree of a forest below a given
inherited event list. -/
def validFromList (inherited : List SomaticEvent) (cs : List Subclone) : Bool :=
  match cs with
  | [] => true
  | c :: rest => validFrom inherited c && validFromList inherited rest

end

/-- Modelled from the spec: validity of a whole tree. -/
def validTree (t : Subclone) : Bool := validFrom [] t

/-- Embedded from src/Archivable.h: the Archivable base class holds a single
database identifier field next to whatever state a derived class adds, which
the type parameter stands for. -/
structure Archivable (α : Type) where
  id : Int
  rest : α
deriving DecidableEq

/-- Embedded from src/Archivable.h: the minimal constructor, which resets the
identifier to zero and leaves the derived state as given. -/
def Archivable.init (rest : α) : Archivable α := { id := 0, rest := rest }

/-- Embedded from src/Archivable.h: getId returns the database identifier. -/
def Archivable.getId (a : Archivable α) : Int := a.id

/-- Embedded from src/Archivable.h: setId replaces the database identifier
and touches nothing else. -/
def Archivable.setId (a : Archivable α) (nid : Int) : Archivable α :=
  { a with id := nid }

/-- Sample point mutation event on chromosome 1, used in concrete checks. -/
def evA : SomaticEvent := { kind := 0, chrom := 1, startPos := 0, endPos := 0 }

/-- Sample point mutation event on chromosome 2, tolerant distinct from evA
because the chromosomes differ. -/
def evB : SomaticEvent := { kind := 0, chrom := 2, startPos := 0, endPos := 0 }

/-- Tree with an event free root and two leaf children carrying evA and evB
respectively, the sibling branch scenario of the design document. -/
def siblingTree : Subclone := .mk [] [.mk [evA] [], .mk [evB] []]

/-- Chain tree whose root carries evA and whose only child adds evB. -/
def chainTree : Subclone := .mk [evA] [.mk [evB] []]

/-- Single node without local events. -/
def leafTree : Subclone := .mk [] []

/-- Tree with an event free root and two event free leaf children, on which
every placement is ambiguous between the children. -/
def twinTree : Subclone := .mk [] [.mk [] [], .mk [] []]

/-- Sample event on chromosome 1 whose start offset lies within the boundary
resolution of the start offset of evA. -/
def evC : SomaticEvent := { kind := 0, chrom := 1, startPos := 19999999, endPos := 0 }

/-! Basic lemmas about the event set operations. -/

theorem eventsRelated_refl (a : SomaticEvent) : eventsRelated a a = true := by
  simp [eventsRelated]

theorem hasCounterpart_eq_any (e : SomaticEvent) (l : List SomaticEvent) :
    hasCounterpart e l = l.any fun u => eventsRelated e u := by
  induction l with
  | nil => rfl
  | cons u us ih =>
      by_cases h : eventsRelated e u = true <;>
        simp [hasCounterpart, h, ih]

theorem hasCounterpart_of_mem {e : SomaticEvent} {l : List SomaticEvent}
    (h : e ∈ l) : hasCounterpart e l = true := by
  rw [hasCounterpart_eq_any]
  exact List.any_eq_true.mpr ⟨e, h, eventsRelated_refl e⟩

theorem SomaticEventDifference_eq_filter (master unwanted : List SomaticEvent) :
    SomaticEventDifference master unwanted =
      master.filter fun e => !(unwanted.any fun u => eventsRelated e u) := by
  induction master with
  | nil => rfl
  | cons e es ih =>
      by_cases h : hasCounterpart e unwanted = true
      · rw [SomaticEventDifference, if_pos h, ih, List.filter_cons]
        rw [hasCounterpart_eq_any] at h
        simp [h]
      · rw [SomaticEventDifference, if_neg h, ih, List.filter_cons]
        rw [hasCounterpart_eq_any] at h
        simp [h]

theorem SomaticEventDifference_sublist (master unwanted : List SomaticEvent) :
    (SomaticEventDifference master unwanted).Sublist master := by
  rw [SomaticEventDifference_eq_filter]
  exact List.filter_sublist master

/-! Lemmas about containment, placement and the selection of results. -/

theorem eventSetContains_append_left (E X Y : List SomaticEvent)
    (h : eventSetContains E (X ++ Y) = true) : eventSetContains E X = true := by
  simp only [eventSetContains, List.all_append, Bool.and_eq_true] at h
  exact h.1

theorem checkPlacement_placeable (inh : List SomaticEvent) (p : Subclone)
    (E : List SomaticEvent) :
    (checkPlacement inh p E).2.1 = eventSetContains E (inh ++ p.events) := by
  cases p with
  | mk evts children =>
      simp only [checkPlacement, Subclone.events]
      by_cases hg : eventSetContains E (inh ++ evts) = true
      · rw [if_pos hg, hg]
        cases checkChildren (inh ++ evts) children E <;> simp
      · rw [if_neg hg]
        simp [Bool.not_eq_true] at hg
        simp [hg]

theorem checkChildren_mem {L E s : List SomaticEvent} {cs : List Subclone}
    (h : s ∈ checkChildren L cs E) :
    ∃ c ∈ cs, (checkPlacement L c E).2.1 = true ∧ (checkPlacement L c E).1 = s := by
  induction cs with
  | nil => simp [checkChildren] at h
  | cons c rest ih =>
      simp only [checkChildren] at h
      split at h
      · rcases List.mem_cons.mp h with rfl | hmem
        · exact ⟨c, List.mem_cons_self c rest, by assumption, rfl⟩
        · obtain ⟨c', hc', h1, h2⟩ := ih hmem
          exact ⟨c', List.mem_cons_of_mem c hc', h1, h2⟩
      · obtain ⟨c', hc', h1, h2⟩ := ih h
        exact ⟨c', List.mem_cons_of_mem c hc', h1, h2⟩

theorem guard_of_child_success {L E : List SomaticEvent} {c : Subclone}
    (h : (checkPlacement L c E).2.1 = true) : eventSetContains E L = true := by
  rw [checkPlacement_placeable] at h
  exact eventSetContains_append_left _ _ _ h

theorem bestResult_cons (r c : List SomaticEvent) (rs : List (List SomaticEvent)) :
    bestResult r (c :: rs) = bestResult (if resultSetComparator c r then c else r) rs :=
  rfl

theorem bestResult_spec (r : List SomaticEvent) (rs : List (List SomaticEvent)) :
    (∀ s ∈ r :: rs, (bestResult r rs).length ≤ s.length) ∧
      ∃ l1 l2, r :: rs = l1 ++ bestResult r rs :: l2 ∧
        ∀ s ∈ l1, (bestResult r rs).length < s.length := by
  induction rs generalizing r with
  | nil =>
      refine ⟨?_, [], [], rfl, by simp⟩
      intro s hs
      rw [List.mem_singleton.mp hs]
      exact Nat.le_refl _
  | cons c rs ih =>
      rw [bestResult_cons]
      by_cases hc : resultSetComparator c r = true
      · rw [if_pos hc]
        simp only [resultSetComparator, decide_eq_true_eq] at hc
        obtain ⟨hmin, l1, l2, hdec, hlt⟩ := ih c
        refine ⟨?_, r :: l1, l2, by rw [List.cons_append, ← hdec], ?_⟩
        · intro s hs
          rcases List.mem_cons.mp hs with rfl | hs
          · exact Nat.le_of_lt (Nat.lt_of_le_of_lt (hmin c (List.mem_cons_self c rs)) hc)
          · exact hmin s hs
        · intro s hs
          rcases List.mem_cons.mp hs with rfl | hs
          · exact Nat.lt_of_le_of_lt (hmin c (List.mem_cons_self c rs)) hc
          · exact hlt s hs
      · rw [if_neg hc]
        simp only [resultSetComparator, decide_eq_true_eq, Nat.not_lt] at hc
        obtain ⟨hmin, l1, l2, hdec, hlt⟩ := ih r
        refine ⟨?_, ?_⟩
        · intro s hs
          rcases List.mem_cons.mp hs with h1 | hs
          · rw [h1]
            exact hmin r (List.mem_cons_self r rs)
          · rcases List.mem_cons.mp hs with h2 | hs
            · rw [h2]
              exact Nat.le_trans (hmin r (List.mem_cons_self r rs)) hc
            · exact hmin s (List.mem_cons_of_mem r hs)
        · cases l1 with
          | nil =>
              simp only [List.nil_append] at hdec
              have hbest : bestResult r rs = r :=
                (((List.cons.injEq _ _ _ _).mp hdec).1).symm
              exact ⟨[], c :: rs, by simp [hbest], by simp⟩
          | cons x l1 =>
              simp only [List.cons_append] at hdec
              have hx : r = x := ((List.cons.injEq _ _ _ _).mp hdec).1
              have htail : rs = l1 ++ bestResult r rs :: l2 :=
                ((List.cons.injEq _ _ _ _).mp hdec).2
              have hbr : (bestResult r rs).length < r.length := by
                have := hlt x (List.mem_cons_self x l1)
                rw [← hx] at this
                exact this
              refine ⟨r :: c :: l1, l2, by rw [List.cons_append, List.cons_append, ← htail], ?_⟩
              intro s hs
              rcases List.mem_cons.mp hs with rfl | hs
              · exact hbr
              · rcases List.mem_cons.mp hs with rfl | hs
                · exact Nat.lt_of_lt_of_le hbr hc
                · exact hlt s (List.mem_cons_of_mem x hs)

theorem bestResult_mem (r : List SomaticEvent) (rs : List (List SomaticEvent)) :
    bestResult r rs ∈ r :: rs := by
  obtain ⟨-, l1, l2, hdec, -⟩ := bestResult_spec r rs
  rw [hdec]
  exact List.mem_append_right l1 (List.mem_cons_self _ l2)

theorem Subclone.sizeOf_child_lt {c : Subclone} {evts : List SomaticEvent}
    {cs : List Subclone} (hc : c ∈ cs) : sizeOf c < sizeOf (Subclone.mk evts cs) := by
  have h := List.sizeOf_lt_of_mem hc
  simp only [Subclone.mk.sizeOf_spec]
  omega

theorem checkPlacement_sublist_aux :
    ∀ (n : Nat) (p : Subclone), sizeOf p < n →
      ∀ (inh E : List SomaticEvent), ((checkPlacement inh p E).1).Sublist E := by
  intro n
  induction n with
  | zero => intro p hp; exact absurd hp (by omega)
  | succ n ih =>
      intro p hp inh E
      cases p with
      | mk evts children =>
          simp only [checkPlacement]
          by_cases hg : eventSetContains E (inh ++ evts) = true
          · rw [if_pos hg]
            cases hcc : checkChildren (inh ++ evts) children E with
            | nil => exact SomaticEventDifference_sublist E (inh ++ evts)
            | cons r rs =>
                have hb : bestResult r rs ∈ checkChildren (inh ++ evts) children E := by
                  rw [hcc]; exact bestResult_mem r rs
                obtain ⟨c, hc, -, heq⟩ := checkChildren_mem hb
                have hlt : sizeOf c < sizeOf (Subclone.mk evts children) :=
                  Subclone.sizeOf_child_lt hc
                show (bestResult r rs).Sublist E
                rw [← heq]
                exact ih c (by omega) (inh ++ evts) E
          · rw [if_neg hg]

theorem eventSetContains_cons (B : List SomaticEvent) (e : SomaticEvent)
    (es : List SomaticEvent) :
    eventSetContains B (e :: es) = (hasCounterpart e B && eventSetContains B es) := by
  simp [eventSetContains]

theorem impliedEventSetsList_extends_aux :
    ∀ (n : Nat) (cs : List Subclone), sizeOf cs < n →
      ∀ (inh E : List SomaticEvent), E ∈ impliedEventSetsList inh cs →
        ∃ rest, E = inh ++ rest := by
  intro n
  induction n with
  | zero => intro cs h; exact absurd h (by omega)
  | succ n ih =>
      intro cs hcs inh E hE
      cases cs with
      | nil => simp [impliedEventSetsList] at hE
      | cons c rest =>
          simp only [impliedEventSetsList, List.mem_append] at hE
          rcases hE with hE | hE
          · cases c with
            | mk evts children =>
                simp only [impliedEventSets, List.mem_cons] at hE
                rcases hE with h1 | hE
                · exact ⟨evts, h1⟩
                · have hsz : sizeOf children < n := by
                    simp only [List.cons.sizeOf_spec, Subclone.mk.sizeOf_spec] at hcs
                    omega
                  obtain ⟨r, hr⟩ := ih children hsz (inh ++ evts) E hE
                  exact ⟨evts ++ r, by rw [hr, List.append_assoc]⟩
          · have hsz : sizeOf rest < n := by
              simp only [List.cons.sizeOf_spec] at hcs
              omega
            exact ih rest hsz inh E hE

theorem impliedEventSets_extends {inh E : List SomaticEvent} {t : Subclone}
    (hE : E ∈ impliedEventSets inh t) : ∃ rest, E = inh ++ t.events ++ rest := by
  cases t with
  | mk evts children =>
      simp only [impliedEventSets, List.mem_cons, Subclone.events] at hE ⊢
      rcases hE with h1 | hE
      · exact ⟨[], by rw [h1, List.append_nil]⟩
      · obtain ⟨r, hr⟩ := impliedEventSetsList_extends_aux (sizeOf children + 1)
          children (by omega) (inh ++ evts) E hE
        exact ⟨r, by rw [hr, List.append_assoc]⟩

/-! Claim theorems. -/

/-- C1: TreeMerge returns true exactly when every node of q, taken with its
implied event list, is reported placeable in p by checkPlacement against the
root of p, and the verdict is invariant under any reordering of the nodes of
q; in particular whenever some node is not placeable the verdict is false. -/
theorem treeMerge_verdict (p q : Subclone) (l : List (List SomaticEvent))
    (hl : l.Perm (impliedEventSets [] q)) :
    (TreeMerge p q = true ↔
        ∀ E ∈ impliedEventSets [] q, (checkPlacement [] p E).2.1 = true) ∧
      (l.all fun E => (checkPlacement [] p E).2.1) = TreeMerge p q := by
  constructor
  · simp [TreeMerge, List.all_eq_true]
  · rw [Bool.eq_iff_iff]
    simp only [TreeMerge, List.all_eq_true]
    constructor
    · intro hall E hE
      exact hall E (hl.mem_iff.mpr hE)
    · intro hall E hE
      exact hall E (hl.mem_iff.mp hE)

/-- C1 witness: the verdict theorem evaluated with the chain tree compared
against a bare root, listing the implied event lists in reversed order. -/
theorem treeMerge_verdict_wit :
    (TreeMerge leafTree chainTree = true ↔
        ∀ E ∈ impliedEventSets [] chainTree,
          (checkPlacement [] leafTree E).2.1 = true) ∧
      (([[evA, evB], [evA]] : List (List SomaticEvent)).all
          fun E => (checkPlacement [] leafTree E).2.1) =
        TreeMerge leafTree chainTree :=
  treeMerge_verdict leafTree chainTree [[evA, evB], [evA]] (by decide)

/-- C2 counterexample: a node whose implied event list is empty does not
contain the floating event evA in the sense of the design document, so the
hypothesis of the claim holds, yet checkPlacement reports the placement as
successful rather than failed. -/
theorem checkPlacement_guard_order_cex :
    eventSetContains [] [evA] = false ∧
      (checkPlacement [] leafTree [evA]).2.1 = true := by decide

/-- C2 amended: when the floating event set fails to contain the implied
event list of pnode, that is when eventSetContains somaticEvents localImplied
is false, checkPlacement reports the placement as failed and returns the
floating set unchanged. -/
theorem checkPlacement_guard_order (inh E : List SomaticEvent) (p : Subclone)
    (h : eventSetContains E (inh ++ p.events) = false) :
    checkPlacement inh p E = (E, false, 0) := by
  cases p with
  | mk evts children =>
      simp only [Subclone.events] at h
      simp only [checkPlacement]
      rw [if_neg]
      simp [h]

/-- C2 witness: the amended guard theorem evaluated on a single node carrying
evA against an empty floating set. -/
theorem checkPlacement_guard_order_wit :
    eventSetContains [] ([] ++ (Subclone.mk [evA] []).events) = false ∧
      checkPlacement [] (Subclone.mk [evA] []) [] = ([], false, 0) :=
  ⟨by decide, checkPlacement_guard_order [] [] (Subclone.mk [evA] []) (by decide)⟩

/-- C3 counterexample: on the sibling tree the floating set consisting of evA
and evB is reported placeable with leftover consisting of evB alone, not with
leftover evA and evB, and each child taken alone also reports a successful
placement, against the wording of the claim. -/
theorem checkPlacement_sibling_cex :
    (checkPlacement [] siblingTree [evA, evB]).2.1 = true ∧
      (checkPlacement [] siblingTree [evA, evB]).1 = [evB] ∧
      ([evB] : List SomaticEvent) ≠ [evA, evB] ∧
      (checkPlacement [] (Subclone.mk [evA] []) [evA, evB]).2.1 = true ∧
      (checkPlacement [] (Subclone.mk [evB] []) [evA, evB]).2.1 = true := by decide

/-- C3 amended: for a tree whose event free root has exactly two children
carrying tolerant distinct events A and B, the floating set consisting of A
and B is placeable in each child taken alone, with leftovers B and A
respectively, and checkPlacement at the root resolves the ambiguity to the
first of the two equally small leftovers, returning leftover B with a
successful placement and a diagnostic child count of two. -/
theorem checkPlacement_sibling_amended (A B : SomaticEvent)
    (h1 : eventsRelated A B = false) (h2 : eventsRelated B A = false) :
    checkPlacement [] (Subclone.mk [] [Subclone.mk [A] [], Subclone.mk [B] []])
        [A, B] = ([B], true, 2) ∧
      (checkPlacement [] (Subclone.mk [A] []) [A, B]).2.1 = true ∧
      (checkPlacement [] (Subclone.mk [B] []) [A, B]).2.1 = true := by
  refine ⟨?_, ?_, ?_⟩ <;>
    simp [checkPlacement, checkChildren, eventSetContains, hasCounterpart,
      SomaticEventDifference, bestResult, resultSetComparator,
      eventsRelated_refl, h1, h2]

/-- C3 witness: the amended sibling scenario evaluated at the concrete
tolerant distinct events evA and evB. -/
theorem checkPlacement_sibling_amended_wit :
    checkPlacement []
        (Subclone.mk [] [Subclone.mk [evA] [], Subclone.mk [evB] []])
        [evA, evB] = ([evB], true, 2) ∧
      (checkPlacement [] (Subclone.mk [evA] []) [evA, evB]).2.1 = true ∧
      (checkPlacement [] (Subclone.mk [evB] []) [evA, evB]).2.1 = true :=
  checkPlacement_sibling_amended evA evB (by decide) (by decide)

/-- C4: when more than one child of pnode reports a successful placement of
the same floating set, checkPlacement still reports success, and the returned
leftover is the one among the successful children leftovers that ranks first
by event count, with ties resolved in favour of the earliest child. -/
theorem checkPlacement_tiebreak (inh E : List SomaticEvent) (p : Subclone)
    (h : 1 < (checkChildren (inh ++ p.events) p.children E).length) :
    (checkPlacement inh p E).2.1 = true ∧
      (∀ s ∈ checkChildren (inh ++ p.events) p.children E,
          (checkPlacement inh p E).1.length ≤ s.length) ∧
      ∃ l1 l2, checkChildren (inh ++ p.events) p.children E =
          l1 ++ (checkPlacement inh p E).1 :: l2 ∧
        ∀ s ∈ l1, (checkPlacement inh p E).1.length < s.length := by
  cases p with
  | mk evts children =>
      simp only [Subclone.events, Subclone.children] at h ⊢
      cases hcc : checkChildren (inh ++ evts) children E with
      | nil => rw [hcc] at h; simp at h
      | cons r rs =>
          have hr : r ∈ checkChildren (inh ++ evts) children E := by
            rw [hcc]
            exact List.mem_cons_self r rs
          obtain ⟨c, hcmem, hcp, -⟩ := checkChildren_mem hr
          have hg : eventSetContains E (inh ++ evts) = true :=
            guard_of_child_success hcp
          have hcp_eq : checkPlacement inh (Subclone.mk evts children) E =
              (bestResult r rs, true, (r :: rs).length) := by
            simp only [checkPlacement]
            rw [if_pos hg, hcc]
          rw [hcp_eq]
          obtain ⟨hmin, l1, l2, hdec, hlt⟩ := bestResult_spec r rs
          exact ⟨rfl, hmin, l1, l2, hdec, hlt⟩

/-- C4 witness: the tie break theorem evaluated on the twin tree, where both
children succeed with empty leftovers on the empty floating set. -/
theorem checkPlacement_tiebreak_wit :
    1 < (checkChildren ([] ++ twinTree.events) twinTree.children []).length ∧
      ((checkPlacement [] twinTree []).2.1 = true ∧
        (∀ s ∈ checkChildren ([] ++ twinTree.events) twinTree.children [],
            (checkPlacement [] twinTree []).1.length ≤ s.length) ∧
        ∃ l1 l2, checkChildren ([] ++ twinTree.events) twinTree.children [] =
            l1 ++ (checkPlacement [] twinTree []).1 :: l2 ∧
          ∀ s ∈ l1, (checkPlacement [] twinTree []).1.length < s.length) :=
  ⟨by decide, checkPlacement_tiebreak [] [] twinTree (by decide)⟩

/-- C5: the leftover returned by checkPlacement is a sublist of the floating
event set, so it inherits the input order, introduces no new events, and each
of its events has a tolerant equal counterpart in the input. -/
theorem checkPlacement_leftover_bound (inh E : List SomaticEvent) (p : Subclone) :
    ((checkPlacement inh p E).1).Sublist E ∧
      ∀ e ∈ (checkPlacement inh p E).1, ∃ x ∈ E, eventsRelated e x = true := by
  have hs := checkPlacement_sublist_aux (sizeOf p + 1) p (by omega) inh E
  exact ⟨hs, fun e he => ⟨e, hs.subset he, eventsRelated_refl e⟩⟩

/-- C6: for two events sharing kind and chromosome, eventSetContains and
SomaticEventDifference treat them as the same event exactly when both the
start and the end offsets differ by no more than the boundary resolution of
20000000 units, and as distinct events when some offset differs by more. -/
theorem tolerant_equality_boundary (a b : SomaticEvent)
    (hk : a.kind = b.kind) (hc : a.chrom = b.chrom) :
    eventSetContains [b] [a] =
        (decide ((a.startPos - b.startPos).natAbs ≤ BOUNDRY_RESOLUTION) &&
          decide ((a.endPos - b.endPos).natAbs ≤ BOUNDRY_RESOLUTION)) ∧
      SomaticEventDifference [a] [b] =
        if (a.startPos - b.startPos).natAbs ≤ BOUNDRY_RESOLUTION ∧
            (a.endPos - b.endPos).natAbs ≤ BOUNDRY_RESOLUTION then [] else [a] := by
  by_cases h1 : (a.startPos - b.startPos).natAbs ≤ BOUNDRY_RESOLUTION <;>
    by_cases h2 : (a.endPos - b.endPos).natAbs ≤ BOUNDRY_RESOLUTION <;>
      simp [eventSetContains, hasCounterpart, SomaticEventDifference,
        eventsRelated, hk, hc, h1, h2]

/-- C6 witness: the boundary theorem evaluated at evA and evC, two events of
equal kind and chromosome whose start offsets differ by less than the
boundary resolution. -/
theorem tolerant_equality_boundary_wit :
    eventSetContains [evC] [evA] =
        (decide ((evA.startPos - evC.startPos).natAbs ≤ BOUNDRY_RESOLUTION) &&
          decide ((evA.endPos - evC.endPos).natAbs ≤ BOUNDRY_RESOLUTION)) ∧
      SomaticEventDifference [evA] [evC] =
        if (evA.startPos - evC.startPos).natAbs ≤ BOUNDRY_RESOLUTION ∧
            (evA.endPos - evC.endPos).natAbs ≤ BOUNDRY_RESOLUTION then []
        else [evA] :=
  tolerant_equality_boundary evA evC rfl rfl

/-- C7: SomaticEventDifference keeps exactly the events of master without a
tolerant equal counterpart in unwanted, in the order of master, as witnessed
by the filter characterisation together with the sublist property; in this
functional embedding the absence of side effects is inherent. -/
theorem somaticEventDifference_correct (master unwanted : List SomaticEvent) :
    SomaticEventDifference master unwanted =
        (master.filter fun e => !(unwanted.any fun u => eventsRelated e u)) ∧
      (SomaticEventDifference master unwanted).Sublist master :=
  ⟨SomaticEventDifference_eq_filter master unwanted,
    SomaticEventDifference_sublist master unwanted⟩

/-- C8: the difference of A and B is empty exactly when B contains A. -/
theorem difference_empty_iff_contains (A B : List SomaticEvent) :
    SomaticEventDifference A B = [] ↔ eventSetContains B A = true := by
  induction A with
  | nil => simp [SomaticEventDifference, eventSetContains]
  | cons e es ih =>
      by_cases h : hasCounterpart e B = true <;>
        simp [SomaticEventDifference, h, eventSetContains_cons, ih]

/-- C9: TreeMerge of a valid tree with itself is true, since the implied
event list of every node of the tree extends the local event list of the
root, so every node is reported placeable. -/
theorem treeMerge_reflexive (t : Subclone) (_h : validTree t = true) :
    TreeMerge t t = true := by
  rw [TreeMerge, List.all_eq_true]
  intro E hE
  rw [checkPlacement_placeable]
  obtain ⟨rest, hr⟩ := impliedEventSets_extends hE
  simp only [List.nil_append, eventSetContains, List.all_eq_true]
  intro e he
  apply hasCounterpart_of_mem
  rw [hr]
  simp [he]

/-- C9 witness: reflexivity evaluated at the valid chain tree. -/
theorem treeMerge_reflexive_wit :
    validTree chainTree = true ∧ TreeMerge chainTree chainTree = true :=
  ⟨by decide, treeMerge_reflexive chainTree (by decide)⟩

/-- C10: a freshly constructed Archivable has identifier zero, setId followed
by getId returns the new identifier, and setId leaves the remaining state of
the object untouched. -/
theorem archivable_id_contract (α : Type) (r : α) (a : Archivable α) (n : Int) :
    (Archivable.init r).getId = 0 ∧ (Archivable.init r).rest = r ∧
      (a.setId n).getId = n ∧ (a.setId n).rest = a.rest :=
  ⟨rfl, rfl, rfl, rfl⟩

end SubcloneSeeker
